import Mathlib

/-!
Verification of the IV / Greeks computational core of the `option_data`
repository (`src/compute_greeks.py`, `src/VI_data_extraction/calculate_vi_2024.py`,
`src/VI_data_extraction/VI.py`).

The Python code is embedded shallowly over exact rational arithmetic.  The
transcendental library functions it calls (`numpy.exp/log/sqrt`,
`scipy.stats.norm.cdf/pdf`) are external collaborators of the repository and
are abstracted as an oracle record `BSFuns`; every algorithmic definition
below is a faithful translation of the corresponding Python function, with
the floating sentinel `np.nan` rendered as `Option.none` and a raised Python
exception rendered through `Except`.
-/

namespace OptionData

/-- Oracle record for the external numerical library functions used by the
Python sources: `numpy.exp`, `numpy.log`, `numpy.sqrt`, `scipy.stats.norm.cdf`
and `scipy.stats.norm.pdf`.  The repository's algorithms are embedded as
functions of this record; control-flow claims are settled for every oracle. -/
structure BSFuns where
  exp : ℚ → ℚ
  log : ℚ → ℚ
  sqrt : ℚ → ℚ
  cdf : ℚ → ℚ
  pdf : ℚ → ℚ

/-- Constant `IV_LOWER = 0.001` from `compute_greeks.py`. -/
def IV_LOWER : ℚ := 1/1000

/-- Constant `IV_UPPER = 5.0` from `compute_greeks.py`. -/
def IV_UPPER : ℚ := 5

/-- Function `_bs_price` of `compute_greeks.py`: closed-form Black-Scholes
call/put price with continuous dividend yield `q`. -/
def bs_price (F : BSFuns) (S K T r q sigma : ℚ) (is_call : Bool) : ℚ :=
  let sqrt_T := F.sqrt T
  let d1 := (F.log (S / K) + (r - q + 1/2 * sigma^2) * T) / (sigma * sqrt_T)
  let d2 := d1 - sigma * sqrt_T
  if is_call then
    S * F.exp (-q * T) * F.cdf d1 - K * F.exp (-r * T) * F.cdf d2
  else
    K * F.exp (-r * T) * F.cdf (-d2) - S * F.exp (-q * T) * F.cdf (-d1)

/-- Failure modes of `scipy.optimize.brentq`: `ValueError` when the bracket
has no sign change, `RuntimeError` when the iteration budget is exhausted
before convergence. -/
inductive BrentErr where
  | valueError : BrentErr
  | runtimeError : BrentErr
deriving DecidableEq

/-- Bisection loop of the bracketing root-finder model (see `brentq`): the
fuel argument is the iteration budget; the loop stops once the bracket width
is at most `xtol`, returning the bracket midpoint, or immediately when an
exact zero is hit. -/
def bisectLoop (f : ℚ → ℚ) (xtol : ℚ) : ℕ → ℚ → ℚ → ℚ → ℚ → Except BrentErr ℚ
  | 0, _, _, _, _ => .error .runtimeError
  | n + 1, a, b, fa, fb =>
    if b - a ≤ xtol then .ok ((a + b) / 2)
    else if f ((a + b) / 2) = 0 then .ok ((a + b) / 2)
    else if fa * f ((a + b) / 2) < 0 then
      bisectLoop f xtol n a ((a + b) / 2) fa (f ((a + b) / 2))
    else bisectLoop f xtol n ((a + b) / 2) b (f ((a + b) / 2)) fb

/-- Model of the external `scipy.optimize.brentq(f, a, b, maxiter, xtol)`:
a derivative-free bracketing root-finder with guaranteed convergence on a
valid bracket.  As scipy's implementation does, it returns an endpoint at
which `f` is exactly zero, raises `ValueError` when `f(a)` and `f(b)` have
the same strict sign, and otherwise narrows the bracket (modelled by
bisection), raising `RuntimeError` if the budget runs out. -/
def brentq (f : ℚ → ℚ) (a b xtol : ℚ) (maxiter : ℕ) : Except BrentErr ℚ :=
  if f a = 0 then .ok a
  else if f b = 0 then .ok b
  else if f a * f b > 0 then .error .valueError
  else bisectLoop f xtol maxiter a b (f a) (f b)

/-- Conversion performed by the `try ... except (ValueError, RuntimeError):
return np.nan` wrapper in `_solve_iv`: every root-finder failure becomes the
sentinel. -/
def exceptToNan : Except BrentErr ℚ → Option ℚ
  | .ok v => some v
  | .error _ => none

/-- Argument tuple `(S, K, T, r, q, mkt_price, is_call)` of `_solve_iv`. -/
structure SolveArgs where
  S : ℚ
  K : ℚ
  T : ℚ
  r : ℚ
  q : ℚ
  mkt_price : ℚ
  is_call : Bool
deriving DecidableEq

/-- Function `_solve_iv` of `compute_greeks.py`: per-row bracketed IV solve.
Invalid geometry returns the sentinel at once; then the price differences at
`IV_LOWER` and `IV_UPPER` are formed, a strictly positive product returns the
sentinel, and otherwise `brentq` runs with `maxiter=100`, `xtol=1e-8`, any
failure being caught and converted to the sentinel. -/
def solve_iv (F : BSFuns) (a : SolveArgs) : Option ℚ :=
  if a.T ≤ 0 ∨ a.mkt_price ≤ 0 ∨ a.S ≤ 0 ∨ a.K ≤ 0 then none
  else
    let f_lo := bs_price F a.S a.K a.T a.r a.q IV_LOWER a.is_call - a.mkt_price
    let f_hi := bs_price F a.S a.K a.T a.r a.q IV_UPPER a.is_call - a.mkt_price
    if f_lo * f_hi > 0 then none
    else
      exceptToNan (brentq
        (fun sig => bs_price F a.S a.K a.T a.r a.q sig a.is_call - a.mkt_price)
        IV_LOWER IV_UPPER (1/10^8) 100)

/-- The function whose root `_solve_iv` brackets:
`priceDiff(sigma) = _bs_price(sigma) - mkt_price` for the given row. -/
def priceDiff (F : BSFuns) (a : SolveArgs) (sig : ℚ) : ℚ :=
  bs_price F a.S a.K a.T a.r a.q sig a.is_call - a.mkt_price

/-- Function `_solve_iv_chunk` of `compute_greeks.py`: applies `_solve_iv`
to every row of a chunk, in order. -/
def solve_iv_chunk (F : BSFuns) (chunk : List SolveArgs) : List (Option ℚ) :=
  chunk.map (solve_iv F)

/-- One row of input to `vectorized_iv` of `calculate_vi_2024.py`, gathering
the equally indexed entries of the `market_price`, `S`, `K`, `T` and
`is_call` arrays. -/
structure RowInput where
  market_price : ℚ
  S : ℚ
  K : ℚ
  T : ℚ
  is_call : Bool
deriving DecidableEq

/-- Per-row solver state of `vectorized_iv`: the entries of the `sigma`,
`result` and `active` arrays at one index.  `np.nan` is `none`. -/
structure RowState where
  sigma : Option ℚ
  result : Option ℚ
  active : Bool
deriving DecidableEq

/-- Black-Scholes price as computed inside the loop of `vectorized_iv`
(no dividend yield): `np.where(call, call_price, put_price)` at one row. -/
def newton_price (F : BSFuns) (r : ℚ) (inp : RowInput) (s : ℚ) : ℚ :=
  let sqrt_t := F.sqrt inp.T
  let d1 := (F.log (inp.S / inp.K) + (r + 1/2 * s^2) * inp.T) / (s * sqrt_t)
  let d2 := d1 - s * sqrt_t
  let call_price := inp.S * F.cdf d1 - inp.K * F.exp (-r * inp.T) * F.cdf d2
  let put_price := inp.K * F.exp (-r * inp.T) * F.cdf (-d2) - inp.S * F.cdf (-d1)
  if inp.is_call then call_price else put_price

/-- Vega `S * norm.pdf(d1) * sqrt(t)` as computed inside `vectorized_iv`. -/
def newton_vega (F : BSFuns) (r : ℚ) (inp : RowInput) (s : ℚ) : ℚ :=
  let sqrt_t := F.sqrt inp.T
  let d1 := (F.log (inp.S / inp.K) + (r + 1/2 * s^2) * inp.T) / (s * sqrt_t)
  inp.S * F.pdf d1 * sqrt_t

/-- One iteration of `vectorized_iv` restricted to one row.  The masks
`converged`, `bad_vega`, `still_going` and `bad_sigma` and the updates to the
`result`, `sigma` and `active` arrays mirror the source line for line; all
array operations in the loop body are elementwise over the active rows, so
the iteration is this per-row function applied under the `active` mask. -/
def newtonRowStep (F : BSFuns) (r tol : ℚ) (inp : RowInput) (st : RowState) :
    RowState :=
  match st.active, st.sigma with
  | true, some s =>
      let diff := newton_price F r inp s - inp.market_price
      let vega := newton_vega F r inp s
      let converged := |diff| < tol
      let bad_vega := vega < 1/10^12
      let still_going := ¬converged ∧ ¬bad_vega
      let s1 := if still_going then s - diff / vega else s
      let bad_sigma := still_going ∧ (s1 ≤ 0 ∨ s1 > 10)
      { sigma := if bad_sigma then none else some s1
        result := if converged then some s else st.result
        active := if converged ∨ (bad_vega ∧ ¬converged) ∨ bad_sigma
                  then false else st.active }
  | _, _ => st

/-- One whole-array iteration of `vectorized_iv`. -/
def stepAll (F : BSFuns) (r tol : ℚ) (st : List (RowInput × RowState)) :
    List (RowInput × RowState) :=
  st.map (fun p => (p.1, newtonRowStep F r tol p.1 p.2))

/-- The `for iteration in range(max_iter)` loop of `vectorized_iv`, with the
early `if not active.any(): break` exit. -/
def newtonLoop (F : BSFuns) (r tol : ℚ) :
    ℕ → List (RowInput × RowState) → List (RowInput × RowState)
  | 0, st => st
  | n + 1, st =>
      if st.any (fun p => p.2.active) then newtonLoop F r tol n (stepAll F r tol st)
      else st

/-- Initial per-row state of `vectorized_iv`: `sigma = np.full(n, 0.3)`,
`result = np.full(n, np.nan)`, `active = np.ones(n, dtype=bool)`. -/
def initRow (inp : RowInput) : RowInput × RowState :=
  (inp, ⟨some (3/10), none, true⟩)

/-- Final per-row states of `vectorized_iv` after up to `max_iter`
iterations. -/
def newtonSolve (F : BSFuns) (r tol : ℚ) (inputs : List RowInput)
    (max_iter : ℕ) : List (RowInput × RowState) :=
  newtonLoop F r tol max_iter (inputs.map initRow)

/-- Pointwise zip of the five input arrays of `vectorized_iv`. -/
def zipRows : List ℚ → List ℚ → List ℚ → List ℚ → List Bool → List RowInput
  | mp :: mps, s :: ss, k :: ks, t :: ts, c :: cs =>
      ⟨mp, s, k, t, c⟩ :: zipRows mps ss ks ts cs
  | _, _, _, _, _ => []

/-- Function `vectorized_iv` of `calculate_vi_2024.py`: vectorized
Newton-Raphson implied-volatility solver; returns the `result` array
(`none` = `np.nan` where it fails). -/
def vectorized_iv (F : BSFuns) (market_price S K T : List ℚ) (r : ℚ)
    (is_call : List Bool) (tol : ℚ) (max_iter : ℕ) : List (Option ℚ) :=
  (newtonSolve F r tol (zipRows market_price S K T is_call) max_iter).map
    (fun p => p.2.result)

/-- Recursion underlying `implied_volatility` of `VI.py`: the
`for _ in range(max_iter)` loop; exhausting the budget reaches the
`raise ValueError("IV did not converge")` statement, modelled as
`Except.error`. -/
def implied_volatility_loop (F : BSFuns) (market_price S K T r : ℚ)
    (option_type : String) (tol sigma : ℚ) : ℕ → Except String ℚ
  | 0 => .error "IV did not converge"
  | n + 1 =>
      let d1 := (F.log (S / K) + (r + 1/2 * sigma^2) * T) / (sigma * F.sqrt T)
      let d2 := d1 - sigma * F.sqrt T
      let price :=
        if option_type = "call" then
          S * F.cdf d1 - K * F.exp (-r * T) * F.cdf d2
        else
          K * F.exp (-r * T) * F.cdf (-d2) - S * F.cdf (-d1)
      let vega := S * F.pdf d1 * F.sqrt T
      let diff := price - market_price
      if |diff| < tol then .ok sigma
      else implied_volatility_loop F market_price S K T r option_type tol
        (sigma - diff / vega) n

/-- Function `implied_volatility` of `VI.py`: scalar Newton-Raphson solver
starting from `sigma = 0.3`; raises `ValueError` on non-convergence. -/
def implied_volatility (F : BSFuns) (market_price S K T r : ℚ)
    (option_type : String) (tol : ℚ) (max_iter : ℕ) : Except String ℚ :=
  implied_volatility_loop F market_price S K T r option_type tol (3/10) max_iter

/-- One row of the output of `compute_greeks_vectorized`; each field is
`none` exactly where the source leaves the `np.nan` default in place. -/
structure GreeksRow where
  delta : Option ℚ
  gamma : Option ℚ
  vega : Option ℚ
  theta : Option ℚ
  rho : Option ℚ
deriving DecidableEq

/-- The all-sentinel Greeks row (`np.full_like(sigma, np.nan)` defaults). -/
def nanGreeks : GreeksRow := ⟨none, none, none, none, none⟩

/-- One row of `compute_greeks_vectorized` of `compute_greeks.py`: the
combined validity mask `np.isfinite(sigma) & (T > 0) & (S > 0) & (K > 0) &
(sigma > 0)` selects the rows that receive the closed-form Greeks; every
other row keeps the `np.nan` defaults.  All array operations of the source
are elementwise over the valid rows, so the evaluator is this per-row
function mapped over the arrays. -/
def greeks_row (F : BSFuns) (r q S K T : ℚ) (sigma : Option ℚ)
    (is_call : Bool) : GreeksRow :=
  match sigma with
  | none => nanGreeks
  | some sig =>
    if T > 0 ∧ S > 0 ∧ K > 0 ∧ sig > 0 then
      let sqrt_T := F.sqrt T
      let d1 := (F.log (S / K) + (r - q + 1/2 * sig^2) * T) / (sig * sqrt_T)
      let d2 := d1 - sig * sqrt_T
      let exp_qT := F.exp (-q * T)
      let exp_rT := F.exp (-r * T)
      let phi_d1 := F.pdf d1
      let gamma := exp_qT * phi_d1 / (S * sig * sqrt_T)
      let vega := S * exp_qT * phi_d1 * sqrt_T / 100
      let delta := if is_call then exp_qT * F.cdf d1 else exp_qT * (F.cdf d1 - 1)
      let common_theta := -(S * phi_d1 * sig * exp_qT) / (2 * sqrt_T)
      let theta_call := common_theta - r * K * exp_rT * F.cdf d2
        + q * S * exp_qT * F.cdf d1
      let theta_put := common_theta + r * K * exp_rT * F.cdf (-d2)
        - q * S * exp_qT * F.cdf (-d1)
      let theta := (if is_call then theta_call else theta_put) / 365
      let rho := if is_call then K * T * exp_rT * F.cdf d2 / 100
                 else -K * T * exp_rT * F.cdf (-d2) / 100
      ⟨some delta, some gamma, some vega, some theta, some rho⟩
    else nanGreeks

/-- Function `compute_greeks_vectorized` of `compute_greeks.py`, rowwise
over the five parallel arrays. -/
def compute_greeks_vectorized (F : BSFuns) :
    List ℚ → List ℚ → List ℚ → ℚ → ℚ → List (Option ℚ) → List Bool →
    List GreeksRow
  | s :: ss, k :: ks, t :: ts, r, q, sg :: sgs, c :: cs =>
      greeks_row F r q s k t sg c ::
        compute_greeks_vectorized F ss ks ts r q sgs cs
  | _, _, _, _, _, _, _ => []

/-- The d1 of the specification (§4.1): `(ln(S/K) + (r − q + σ²/2)·T)/(σ√T)`. -/
def specD1 (F : BSFuns) (r q S K T sig : ℚ) : ℚ :=
  (F.log (S / K) + (r - q + sig^2 / 2) * T) / (sig * F.sqrt T)

/-- The d2 of the specification (§4.1): `d1 − σ√T`. -/
def specD2 (F : BSFuns) (r q S K T sig : ℚ) : ℚ :=
  specD1 F r q S K T sig - sig * F.sqrt T

/-- Greeks formulas exactly as stated in the specification (§4.5), written
independently of the source for the refinement comparison in C4. -/
def specGreeks (F : BSFuns) (r q S K T sig : ℚ) (is_call : Bool) : GreeksRow :=
  ⟨some (if is_call then F.exp (-q * T) * F.cdf (specD1 F r q S K T sig)
         else F.exp (-q * T) * (F.cdf (specD1 F r q S K T sig) - 1)),
   some (F.exp (-q * T) * F.pdf (specD1 F r q S K T sig) / (S * sig * F.sqrt T)),
   some (S * F.exp (-q * T) * F.pdf (specD1 F r q S K T sig) * F.sqrt T / 100),
   some (if is_call then
      (-(S * F.pdf (specD1 F r q S K T sig) * sig * F.exp (-q * T)) / (2 * F.sqrt T)
        - r * K * F.exp (-r * T) * F.cdf (specD2 F r q S K T sig)
        + q * S * F.exp (-q * T) * F.cdf (specD1 F r q S K T sig)) / 365
    else
      (-(S * F.pdf (specD1 F r q S K T sig) * sig * F.exp (-q * T)) / (2 * F.sqrt T)
        + r * K * F.exp (-r * T) * F.cdf (-specD2 F r q S K T sig)
        - q * S * F.exp (-q * T) * F.cdf (-specD1 F r q S K T sig)) / 365),
   some (if is_call then K * T * F.exp (-r * T) * F.cdf (specD2 F r q S K T sig) / 100
         else -(K * T * F.exp (-r * T) * F.cdf (-specD2 F r q S K T sig)) / 100)⟩

/-- Chunk size `SUB_CHUNK = 5000` from `main` of `compute_greeks.py`. -/
def SUB_CHUNK : ℕ := 5000

/-- Python `range(0, n, c)`: the chunk start offsets. -/
def pyRange (n c : ℕ) : List ℕ := (List.range ((n + c - 1) / c)).map (· * c)

/-- The chunk partition `[all_args[i:i+c] for i in range(0, len(all_args), c)]`
built by `main` of `compute_greeks.py`. -/
def makeChunks (l : List α) (c : ℕ) : List (List α) :=
  (pyRange l.length c).map (fun i => (l.drop i).take c)

/-- The `iv_arr[start_idx:end_idx] = result` write performed by the
orchestrator for the delivered pair `(i, result)` with `start_idx = i * c`,
on the array modelled as a function from indices to entries. -/
def writeChunk (c : ℕ) (acc : ℕ → Option ℚ) (p : ℕ × List (Option ℚ)) :
    ℕ → Option ℚ :=
  fun j => if p.1 * c ≤ j ∧ j < p.1 * c + p.2.length
           then p.2.getD (j - p.1 * c) none else acc j

/-- The collection loop of `main`: starting from `iv_arr = np.full(n, np.nan)`,
each delivered `(chunk index, chunk results)` pair is written at its chunk
start offset, in delivery order. -/
def assemble (c : ℕ) (delivered : List (ℕ × List (Option ℚ))) :
    ℕ → Option ℚ :=
  delivered.foldl (writeChunk c) (fun _ => none)

/-- The index-tagged chunk results produced by the worker pool: chunk `i`
of the partition, solved row by row by `_solve_iv_chunk`, tagged with `i`. -/
def taggedResults (F : BSFuns) (args : List SolveArgs) (c : ℕ) :
    List (ℕ × List (Option ℚ)) :=
  ((makeChunks args c).map (solve_iv_chunk F)).enum

/-- Test oracle: every library function returns 0. -/
def Fzero : BSFuns := ⟨fun _ => 0, fun _ => 0, fun _ => 0, fun _ => 0, fun _ => 0⟩

/-- Test oracle making the Black-Scholes price of `bs_price` with
`S = K = T = 1`, `r = q = 0` equal to `sigma` itself: `exp` is constantly 1
and the remaining functions are the identity. -/
def Fid : BSFuns := ⟨fun _ => 1, id, id, id, id⟩

/-- Test oracle with constant vega 1 and constant price 0 (for rows with
`S = 1`, `T = 1`, `r = 0`): the Newton iteration moves `sigma` by
`market_price` forever. -/
def Fdrift : BSFuns := ⟨fun _ => 1, fun _ => 0, fun _ => 1, fun _ => 0, fun _ => 1⟩

/-- Test oracle with `cdf` constantly 1/2 and `exp` equal to 1 at 0 and 0
elsewhere: with `q = 0`, `r = 1`, `T = 1` the call price is `S/2`,
independent of `sigma`. -/
def Fhalf : BSFuns :=
  ⟨fun x => if x = 0 then 1 else 0, fun _ => 0, fun _ => 0, fun _ => 1/2, fun _ => 0⟩

end OptionData

deriving instance DecidableEq for Except

attribute [local semireducible] Rat.add Rat.sub Rat.mul Rat.inv

namespace OptionData

/-- Helper: the geometry guard of `_solve_iv` fires exactly on its
disjunction. -/
theorem solve_iv_of_invalid (F : BSFuns) (a : SolveArgs)
    (h : a.T ≤ 0 ∨ a.mkt_price ≤ 0 ∨ a.S ≤ 0 ∨ a.K ≤ 0) :
    solve_iv F a = none := by
  unfold solve_iv
  rw [if_pos h]

/-- C6 (corrected). For every oracle and every row with invalid geometry
(`T ≤ 0`, `marketPrice ≤ 0`, `S ≤ 0` or `K ≤ 0`), the bracketed per-row
solver `_solve_iv` returns the sentinel immediately; since this holds for
every oracle `F`, no pricing evaluation influences the result, i.e. the row
never enters the solve.  (The claim's further assertion about the vectorized
Newton solver is refuted by `newton_no_geometry_guard_cex`.) -/
theorem solve_iv_invalid_geometry (F : BSFuns) (a : SolveArgs)
    (h : a.T ≤ 0 ∨ a.mkt_price ≤ 0 ∨ a.S ≤ 0 ∨ a.K ≤ 0) :
    solve_iv F a = none :=
  solve_iv_of_invalid F a h

/-- C6 witness: a concrete expired row (`T = 0`) yields the sentinel. -/
theorem solve_iv_invalid_geometry_witness :
    solve_iv Fzero ⟨100, 100, 0, 1/100, 0, 5, true⟩ = none :=
  solve_iv_invalid_geometry Fzero ⟨100, 100, 0, 1/100, 0, 5, true⟩
    (Or.inl (by norm_num))

/-- C6 counterexample: the claim asserts that in either solver variant an
invalid-geometry row immediately yields the sentinel and never enters the
iterative solve.  For the vectorized Newton solver `vectorized_iv` this is
false: it has no geometry guard (its caller filters rows before the solve),
and this row with `marketPrice = 0 ≤ 0` enters the iteration and even
converges to the numeric value `0.3` (the oracle mirrors the real
deep-out-of-the-money regime where the Black-Scholes price at the seed
volatility is below the tolerance). -/
theorem newton_no_geometry_guard_cex :
    ((0 : ℚ) ≤ 0) ∧
      vectorized_iv Fzero [0] [100] [200] [1/100] (65/1000) [true]
        (1/10^6) 100 = [some (3/10)] := by
  decide

/-- Helper: on the valid-geometry path, `_solve_iv` is the no-bracket test
followed by the guarded `brentq` call on `priceDiff`. -/
theorem solve_iv_of_valid (F : BSFuns) (a : SolveArgs)
    (h : ¬(a.T ≤ 0 ∨ a.mkt_price ≤ 0 ∨ a.S ≤ 0 ∨ a.K ≤ 0)) :
    solve_iv F a =
      if priceDiff F a IV_LOWER * priceDiff F a IV_UPPER > 0 then none
      else exceptToNan (brentq (priceDiff F a) IV_LOWER IV_UPPER (1/10^8) 100) := by
  unfold solve_iv priceDiff
  rw [if_neg h]

/-- Helper: with enough fuel for the bracket width, the bisection loop
always returns a value. -/
theorem bisectLoop_total (f : ℚ → ℚ) (xtol : ℚ) (hx : 0 < xtol) :
    ∀ (n : ℕ) (a b fa fb : ℚ), b - a ≤ xtol * 2 ^ n →
      ∃ x, bisectLoop f xtol (n + 1) a b fa fb = .ok x := by
  intro n
  induction n with
  | zero =>
    intro a b fa fb hw
    refine ⟨(a + b) / 2, ?_⟩
    simp only [bisectLoop]
    rw [if_pos (by simpa using hw)]
  | succ n ih =>
    intro a b fa fb hw
    simp only [bisectLoop]
    by_cases hba : b - a ≤ xtol
    · exact ⟨(a + b) / 2, by rw [if_pos hba]⟩
    · rw [if_neg hba]
      by_cases hfm : f ((a + b) / 2) = 0
      · exact ⟨(a + b) / 2, by rw [if_pos hfm]⟩
      · rw [if_neg hfm]
        have hpow : xtol * 2 ^ (n + 1) = xtol * 2 ^ n + xtol * 2 ^ n := by ring
        by_cases hsign : fa * f ((a + b) / 2) < 0
        · rw [if_pos hsign]
          exact ih a ((a + b) / 2) fa (f ((a + b) / 2)) (by rw [hpow] at hw; linarith)
        · rw [if_neg hsign]
          exact ih ((a + b) / 2) b (f ((a + b) / 2)) fb (by rw [hpow] at hw; linarith)

/-- Helper: on a strictly increasing function with a root strictly inside
the bracket, the bisection loop converges to within `xtol` of the root. -/
theorem bisectLoop_converges (f : ℚ → ℚ) (xtol : ℚ) (hx : 0 < xtol)
    (root : ℚ) (hmono : StrictMono f) (hroot : f root = 0) :
    ∀ (n : ℕ) (a b : ℚ), a < root → root < b → b - a ≤ xtol * 2 ^ n →
      ∃ x, bisectLoop f xtol (n + 1) a b (f a) (f b) = .ok x ∧
        |x - root| ≤ xtol := by
  intro n
  induction n with
  | zero =>
    intro a b ha hb hw
    simp only [pow_zero, mul_one] at hw
    refine ⟨(a + b) / 2, ?_, ?_⟩
    · simp only [bisectLoop]
      rw [if_pos hw]
    · rw [abs_le]
      constructor <;> linarith
  | succ n ih =>
    intro a b ha hb hw
    simp only [bisectLoop]
    by_cases hba : b - a ≤ xtol
    · refine ⟨(a + b) / 2, by rw [if_pos hba], ?_⟩
      rw [abs_le]
      constructor <;> linarith
    · rw [if_neg hba]
      have hfa : f a < 0 := by
        have := hmono ha
        rw [hroot] at this
        exact this
      have hfb : 0 < f b := by
        have := hmono hb
        rw [hroot] at this
        exact this
      have hpow : xtol * 2 ^ (n + 1) = xtol * 2 ^ n + xtol * 2 ^ n := by ring
      by_cases hfm : f ((a + b) / 2) = 0
      · refine ⟨(a + b) / 2, by rw [if_pos hfm], ?_⟩
        have : (a + b) / 2 = root := hmono.injective (by rw [hfm, hroot])
        rw [this]
        simpa using hx.le
      · rw [if_neg hfm]
        by_cases hsign : f a * f ((a + b) / 2) < 0
        · rw [if_pos hsign]
          have hfm_pos : 0 < f ((a + b) / 2) := by nlinarith
          have hm : root < (a + b) / 2 := by
            have := hmono.lt_iff_lt (a := root) (b := (a + b) / 2)
            rw [hroot] at this
            exact this.mp hfm_pos
          exact ih a ((a + b) / 2) ha hm (by rw [hpow] at hw; linarith)
        · rw [if_neg hsign]
          have hfm_neg : f ((a + b) / 2) < 0 := by
            rcases lt_trichotomy (f ((a + b) / 2)) 0 with h | h | h
            · exact h
            · exact absurd h hfm
            · exact absurd (mul_neg_of_neg_of_pos hfa h) hsign
          have hm : (a + b) / 2 < root := by
            have := hmono.lt_iff_lt (a := (a + b) / 2) (b := root)
            rw [hroot] at this
            exact this.mp hfm_neg
          exact ih ((a + b) / 2) b hm hb (by rw [hpow] at hw; linarith)

/-- Helper: `brentq` on a strictly increasing function with a root strictly
inside the bracket converges to within `xtol` of the root. -/
theorem brentq_converges (f : ℚ → ℚ) (xtol : ℚ) (hx : 0 < xtol)
    (root a b : ℚ) (n : ℕ) (hmono : StrictMono f) (hroot : f root = 0)
    (ha : a < root) (hb : root < b) (hw : b - a ≤ xtol * 2 ^ n) :
    ∃ x, brentq f a b xtol (n + 1) = .ok x ∧ |x - root| ≤ xtol := by
  have hfa : f a < 0 := by
    have := hmono ha
    rw [hroot] at this
    exact this
  have hfb : 0 < f b := by
    have := hmono hb
    rw [hroot] at this
    exact this
  unfold brentq
  rw [if_neg hfa.ne, if_neg hfb.ne', if_neg (by push_neg; nlinarith)]
  exact bisectLoop_converges f xtol hx root hmono hroot n a b ha hb hw

/-- C7 (confirmed). For every oracle and every row passing the geometry
preconditions, `_solve_iv` evaluates `priceDiff` at `IV_LOWER = 0.001` and
`IV_UPPER = 5.0`; when the two values have the same strict sign it returns
the sentinel without invoking the root-finder, and otherwise it runs the
bracketing root-finder `brentq` with `xtol = 1e-8` and `maxiter = 100` on
the bracket `[0.001, 5.0]`. -/
theorem bracket_sign_policy (F : BSFuns) (a : SolveArgs)
    (h : ¬(a.T ≤ 0 ∨ a.mkt_price ≤ 0 ∨ a.S ≤ 0 ∨ a.K ≤ 0)) :
    ((0 < priceDiff F a IV_LOWER ∧ 0 < priceDiff F a IV_UPPER) ∨
        (priceDiff F a IV_LOWER < 0 ∧ priceDiff F a IV_UPPER < 0) →
      solve_iv F a = none) ∧
    (¬((0 < priceDiff F a IV_LOWER ∧ 0 < priceDiff F a IV_UPPER) ∨
        (priceDiff F a IV_LOWER < 0 ∧ priceDiff F a IV_UPPER < 0)) →
      solve_iv F a =
        exceptToNan (brentq (priceDiff F a) IV_LOWER IV_UPPER (1/10^8) 100)) := by
  rw [solve_iv_of_valid F a h]
  constructor
  · intro hs
    rw [if_pos (mul_pos_iff.mpr hs)]
  · intro hs
    rw [if_neg (fun hgt => hs (mul_pos_iff.mp hgt))]

/-- C7 witness: a concrete valid row (oracle `Fhalf`, price constantly
`S/2 = 1`, market price 1) where the signs are not both strict, so the
root-finder branch is taken. -/
theorem bracket_sign_policy_witness :
    ((0 < priceDiff Fhalf ⟨2, 1, 1, 1, 0, 1, true⟩ IV_LOWER ∧
        0 < priceDiff Fhalf ⟨2, 1, 1, 1, 0, 1, true⟩ IV_UPPER) ∨
      (priceDiff Fhalf ⟨2, 1, 1, 1, 0, 1, true⟩ IV_LOWER < 0 ∧
        priceDiff Fhalf ⟨2, 1, 1, 1, 0, 1, true⟩ IV_UPPER < 0) →
      solve_iv Fhalf ⟨2, 1, 1, 1, 0, 1, true⟩ = none) ∧
    (¬((0 < priceDiff Fhalf ⟨2, 1, 1, 1, 0, 1, true⟩ IV_LOWER ∧
        0 < priceDiff Fhalf ⟨2, 1, 1, 1, 0, 1, true⟩ IV_UPPER) ∨
      (priceDiff Fhalf ⟨2, 1, 1, 1, 0, 1, true⟩ IV_LOWER < 0 ∧
        priceDiff Fhalf ⟨2, 1, 1, 1, 0, 1, true⟩ IV_UPPER < 0)) →
      solve_iv Fhalf ⟨2, 1, 1, 1, 0, 1, true⟩ =
        exceptToNan (brentq (priceDiff Fhalf ⟨2, 1, 1, 1, 0, 1, true⟩)
          IV_LOWER IV_UPPER (1/10^8) 100)) :=
  bracket_sign_policy Fhalf ⟨2, 1, 1, 1, 0, 1, true⟩ (by decide)

/-- C10 (confirmed). For every oracle and every valid-geometry row, the
no-bracket sentinel arises only from a strictly positive product of the two
boundary price differences: a zero at `IV_LOWER` makes the solver return
`IV_LOWER` itself, a zero at `IV_UPPER` alone makes it return `IV_UPPER`,
and a sentinel result forces the product to be strictly positive. -/
theorem boundary_zero_proceeds (F : BSFuns) (a : SolveArgs)
    (h : ¬(a.T ≤ 0 ∨ a.mkt_price ≤ 0 ∨ a.S ≤ 0 ∨ a.K ≤ 0)) :
    (priceDiff F a IV_LOWER = 0 → solve_iv F a = some IV_LOWER) ∧
    (priceDiff F a IV_LOWER ≠ 0 → priceDiff F a IV_UPPER = 0 →
      solve_iv F a = some IV_UPPER) ∧
    (solve_iv F a = none →
      priceDiff F a IV_LOWER * priceDiff F a IV_UPPER > 0) := by
  rw [solve_iv_of_valid F a h]
  refine ⟨?_, ?_, ?_⟩
  · intro h0
    rw [if_neg (by rw [h0, zero_mul]; exact lt_irrefl 0)]
    unfold brentq
    rw [if_pos h0]
    rfl
  · intro hne h0
    rw [if_neg (by rw [h0, mul_zero]; exact lt_irrefl 0)]
    unfold brentq
    rw [if_neg hne, if_pos h0]
    rfl
  · intro hnone
    by_contra hng
    rw [if_neg hng] at hnone
    by_cases hlo0 : priceDiff F a IV_LOWER = 0
    · unfold brentq at hnone
      rw [if_pos hlo0] at hnone
      exact Option.noConfusion hnone
    · by_cases hhi0 : priceDiff F a IV_UPPER = 0
      · unfold brentq at hnone
        rw [if_neg hlo0, if_pos hhi0] at hnone
        exact Option.noConfusion hnone
      · unfold brentq at hnone
        rw [if_neg hlo0, if_neg hhi0, if_neg hng] at hnone
        obtain ⟨x, hx⟩ := bisectLoop_total (priceDiff F a) (1/10^8) (by norm_num)
          99 IV_LOWER IV_UPPER (priceDiff F a IV_LOWER) (priceDiff F a IV_UPPER)
          (by rw [IV_LOWER, IV_UPPER]; norm_num)
        rw [show (100 : ℕ) = 99 + 1 from rfl, hx] at hnone
        exact Option.noConfusion hnone

/-- C10 witness: the concrete `Fhalf` row has `priceDiff = 0` at both
bounds, and the solver indeed returns the lower boundary volatility. -/
theorem boundary_zero_proceeds_witness :
    (priceDiff Fhalf ⟨2, 1, 1, 1, 0, 1, true⟩ IV_LOWER = 0 →
      solve_iv Fhalf ⟨2, 1, 1, 1, 0, 1, true⟩ = some IV_LOWER) ∧
    (priceDiff Fhalf ⟨2, 1, 1, 1, 0, 1, true⟩ IV_LOWER ≠ 0 →
      priceDiff Fhalf ⟨2, 1, 1, 1, 0, 1, true⟩ IV_UPPER = 0 →
      solve_iv Fhalf ⟨2, 1, 1, 1, 0, 1, true⟩ = some IV_UPPER) ∧
    (solve_iv Fhalf ⟨2, 1, 1, 1, 0, 1, true⟩ = none →
      priceDiff Fhalf ⟨2, 1, 1, 1, 0, 1, true⟩ IV_LOWER *
        priceDiff Fhalf ⟨2, 1, 1, 1, 0, 1, true⟩ IV_UPPER > 0) :=
  boundary_zero_proceeds Fhalf ⟨2, 1, 1, 1, 0, 1, true⟩ (by decide)

/-- C8 (confirmed). On the path that reaches the root-finder, `_solve_iv`
is exactly the `exceptToNan`-guarded `brentq` call — `exceptToNan` maps
every raised failure to the sentinel — and `_solve_iv_chunk` is the total
rowwise map of `_solve_iv`, so no per-row failure can abort a chunk. -/
theorem root_finder_failure_caught (F : BSFuns) (a : SolveArgs) (e : BrentErr)
    (chunk : List SolveArgs)
    (h : ¬(a.T ≤ 0 ∨ a.mkt_price ≤ 0 ∨ a.S ≤ 0 ∨ a.K ≤ 0))
    (hnb : ¬(priceDiff F a IV_LOWER * priceDiff F a IV_UPPER > 0)) :
    solve_iv F a =
      exceptToNan (brentq (priceDiff F a) IV_LOWER IV_UPPER (1/10^8) 100) ∧
    exceptToNan (Except.error e) = none ∧
    solve_iv_chunk F chunk = chunk.map (solve_iv F) ∧
    (solve_iv_chunk F chunk).length = chunk.length := by
  refine ⟨?_, rfl, rfl, ?_⟩
  · rw [solve_iv_of_valid F a h, if_neg hnb]
  · unfold solve_iv_chunk
    exact List.length_map chunk (solve_iv F)

/-- C8 witness: the concrete `Fhalf` row reaches the root-finder and the
characterization holds there. -/
theorem root_finder_failure_caught_witness :
    solve_iv Fhalf ⟨2, 1, 1, 1, 0, 1, true⟩ =
      exceptToNan (brentq (priceDiff Fhalf ⟨2, 1, 1, 1, 0, 1, true⟩)
        IV_LOWER IV_UPPER (1/10^8) 100) ∧
    exceptToNan (Except.error BrentErr.runtimeError) = none ∧
    solve_iv_chunk Fhalf [⟨2, 1, 1, 1, 0, 1, true⟩] =
      [⟨2, 1, 1, 1, 0, 1, true⟩].map (solve_iv Fhalf) ∧
    (solve_iv_chunk Fhalf [⟨2, 1, 1, 1, 0, 1, true⟩]).length =
      [(⟨2, 1, 1, 1, 0, 1, true⟩ : SolveArgs)].length :=
  root_finder_failure_caught Fhalf ⟨2, 1, 1, 1, 0, 1, true⟩
    BrentErr.runtimeError [⟨2, 1, 1, 1, 0, 1, true⟩] (by decide) (by decide)

/-- Helper: under the oracle `Fid` with `S = K = T = 1`, `r = q = 0`, the
Black-Scholes call price equals the volatility argument itself. -/
theorem Fid_price_eq :
    (fun s : ℚ => bs_price Fid 1 1 1 0 0 s true) = fun s : ℚ => s := by
  funext s
  simp only [bs_price, Fid, id]
  norm_num

/-- Helper: the `Fid` price function is strictly increasing in sigma. -/
theorem Fid_mono : StrictMono (fun s : ℚ => bs_price Fid 1 1 1 0 0 s true) := by
  rw [Fid_price_eq]
  exact strictMono_id

/-- C1 (corrected).  Round-trip for the bracketed per-row solver: for every
oracle making the Black-Scholes price strictly increasing in sigma, every
valid geometry and every sigma strictly inside the solver bounds
`(IV_LOWER, IV_UPPER) = (0.001, 5)`, pricing at sigma and solving IV from
that price returns a value within the root-finder tolerance `1e-8` of
sigma.  (The original claim over all of `(0, 5)` and for the Newton variant
as well is refuted by `roundtrip_claim_cex`.) -/
theorem roundtrip_bracketed (F : BSFuns) (S K T r q : ℚ) (c : Bool) (sig : ℚ)
    (hT : 0 < T) (hS : 0 < S) (hK : 0 < K)
    (hlo : IV_LOWER < sig) (hhi : sig < IV_UPPER)
    (hmono : StrictMono (fun s => bs_price F S K T r q s c))
    (hmp : 0 < bs_price F S K T r q sig c) :
    ∃ x, solve_iv F ⟨S, K, T, r, q, bs_price F S K T r q sig c, c⟩ = some x ∧
      |x - sig| ≤ 1/10^8 := by
  have hvalid : ¬((⟨S, K, T, r, q, bs_price F S K T r q sig c, c⟩ : SolveArgs).T ≤ 0 ∨
      (⟨S, K, T, r, q, bs_price F S K T r q sig c, c⟩ : SolveArgs).mkt_price ≤ 0 ∨
      (⟨S, K, T, r, q, bs_price F S K T r q sig c, c⟩ : SolveArgs).S ≤ 0 ∨
      (⟨S, K, T, r, q, bs_price F S K T r q sig c, c⟩ : SolveArgs).K ≤ 0) := by
    push_neg
    exact ⟨hT, hmp, hS, hK⟩
  have hfmono : StrictMono
      (priceDiff F ⟨S, K, T, r, q, bs_price F S K T r q sig c, c⟩) := by
    intro x y hxy
    exact sub_lt_sub_right (hmono hxy) _
  have hfroot : priceDiff F ⟨S, K, T, r, q, bs_price F S K T r q sig c, c⟩ sig = 0 :=
    sub_self (bs_price F S K T r q sig c)
  have hflo : priceDiff F ⟨S, K, T, r, q, bs_price F S K T r q sig c, c⟩ IV_LOWER < 0 := by
    have := hfmono hlo
    rw [hfroot] at this
    exact this
  have hfhi : 0 < priceDiff F ⟨S, K, T, r, q, bs_price F S K T r q sig c, c⟩ IV_UPPER := by
    have := hfmono hhi
    rw [hfroot] at this
    exact this
  rw [solve_iv_of_valid F _ hvalid,
    if_neg (by push_neg; exact le_of_lt (mul_neg_of_neg_of_pos hflo hfhi))]
  obtain ⟨x, hx, hxd⟩ := brentq_converges
    (priceDiff F ⟨S, K, T, r, q, bs_price F S K T r q sig c, c⟩) (1/10^8)
    (by norm_num) sig IV_LOWER IV_UPPER 99 hfmono hfroot hlo hhi
    (by rw [IV_LOWER, IV_UPPER]; norm_num)
  refine ⟨x, ?_, hxd⟩
  rw [show (100 : ℕ) = 99 + 1 from rfl, hx]
  rfl

/-- C1 witness: with the strictly monotone `Fid` price (price = sigma) and
sigma = 1/2 inside the bounds, the solver recovers 1/2 to within `1e-8`. -/
theorem roundtrip_bracketed_witness :
    ∃ x, solve_iv Fid ⟨1, 1, 1, 0, 0, bs_price Fid 1 1 1 0 0 (1/2) true, true⟩ =
      some x ∧ |x - 1/2| ≤ 1/10^8 :=
  roundtrip_bracketed Fid 1 1 1 0 0 true (1/2) (by norm_num) (by norm_num)
    (by norm_num) (by decide) (by decide) Fid_mono (by decide)

/-- C1 counterexample: the claim quantifies over every sigma in the open
interval `(0, 5)`, but a sigma strictly below `IV_LOWER = 0.001` cannot be
recovered: under the strictly monotone `Fid` price (price = sigma), pricing
at `sigma = 1/2000` and solving returns the sentinel (the price differences
at both bounds are positive, so no bracket exists), not a value within any
tolerance of `1/2000`. -/
theorem roundtrip_claim_cex :
    ((0 : ℚ) < 1/2000 ∧ (1/2000 : ℚ) < 5) ∧
    StrictMono (fun s : ℚ => bs_price Fid 1 1 1 0 0 s true) ∧
    solve_iv Fid ⟨1, 1, 1, 0, 0, bs_price Fid 1 1 1 0 0 (1/2000) true, true⟩ =
      none :=
  ⟨by norm_num, Fid_mono, by decide⟩

/-- C2 (confirmed). One iteration of the vectorized Newton solver treats an
active row with current sigma `s` in this order: converged
(`|price - market| < tol`) writes `s` to the result and deactivates,
regardless of vega; else degenerate vega (`vega < 1e-12`) deactivates with
the result unchanged; else the Newton step is taken, and only strictly
after it the new sigma is tested: out of `(0, 10]` deactivates with the
sigma array set to the sentinel and the result unchanged, otherwise the row
stays active with the updated sigma. -/
theorem newton_step_order (F : BSFuns) (r tol : ℚ) (inp : RowInput)
    (st : RowState) (s : ℚ) (hact : st.active = true)
    (hsig : st.sigma = some s) :
    (|newton_price F r inp s - inp.market_price| < tol →
      newtonRowStep F r tol inp st = ⟨some s, some s, false⟩) ∧
    (¬(|newton_price F r inp s - inp.market_price| < tol) →
      newton_vega F r inp s < 1/10^12 →
      newtonRowStep F r tol inp st = ⟨some s, st.result, false⟩) ∧
    (¬(|newton_price F r inp s - inp.market_price| < tol) →
      ¬(newton_vega F r inp s < 1/10^12) →
      ((s - (newton_price F r inp s - inp.market_price) / newton_vega F r inp s ≤ 0 ∨
          s - (newton_price F r inp s - inp.market_price) / newton_vega F r inp s > 10) →
        newtonRowStep F r tol inp st = ⟨none, st.result, false⟩) ∧
      (¬(s - (newton_price F r inp s - inp.market_price) / newton_vega F r inp s ≤ 0 ∨
          s - (newton_price F r inp s - inp.market_price) / newton_vega F r inp s > 10) →
        newtonRowStep F r tol inp st =
          ⟨some (s - (newton_price F r inp s - inp.market_price) / newton_vega F r inp s),
            st.result, true⟩)) := by
  obtain ⟨sg, res, act⟩ := st
  dsimp only at hact hsig
  subst hact
  subst hsig
  refine ⟨fun hc => ?_, fun hnc hbv => ?_, fun hnc hnbv =>
    ⟨fun hbad => ?_, fun hgood => ?_⟩⟩
  · have hsg : ¬(¬(|newton_price F r inp s - inp.market_price| < tol) ∧
        ¬(newton_vega F r inp s < 1/10^12)) := fun h => h.1 hc
    simp only [newtonRowStep]
    rw [if_neg hsg, if_neg (fun h => hsg h.1), if_pos hc, if_pos (Or.inl hc)]
  · have hsg : ¬(¬(|newton_price F r inp s - inp.market_price| < tol) ∧
        ¬(newton_vega F r inp s < 1/10^12)) := fun h => h.2 hbv
    simp only [newtonRowStep]
    rw [if_neg hsg, if_neg (fun h => hsg h.1), if_neg hnc,
      if_pos (Or.inr (Or.inl ⟨hbv, hnc⟩))]
  · have hsg : ¬(|newton_price F r inp s - inp.market_price| < tol) ∧
        ¬(newton_vega F r inp s < 1/10^12) := ⟨hnc, hnbv⟩
    simp only [newtonRowStep]
    rw [if_pos hsg, if_pos ⟨hsg, hbad⟩, if_neg hnc,
      if_pos (Or.inr (Or.inr ⟨hsg, hbad⟩))]
  · have hsg : ¬(|newton_price F r inp s - inp.market_price| < tol) ∧
        ¬(newton_vega F r inp s < 1/10^12) := ⟨hnc, hnbv⟩
    simp only [newtonRowStep]
    rw [if_pos hsg, if_neg (fun h => hgood h.2), if_neg hnc,
      if_neg (fun h => h.elim hnc (fun h' => h'.elim (fun hh => hnbv hh.1)
        (fun hh => hgood hh.2)))]

/-- C2 witness: a concrete active row under the `Fdrift` oracle, where the
non-converged, healthy-vega step branch applies. -/
theorem newton_step_order_witness :
    (|newton_price Fdrift 0 ⟨1, 1, 1, 1, true⟩ (3/10) -
        (⟨1, 1, 1, 1, true⟩ : RowInput).market_price| < 1/10^6 →
      newtonRowStep Fdrift 0 (1/10^6) ⟨1, 1, 1, 1, true⟩
        ⟨some (3/10), none, true⟩ = ⟨some (3/10), some (3/10), false⟩) ∧
    (¬(|newton_price Fdrift 0 ⟨1, 1, 1, 1, true⟩ (3/10) -
        (⟨1, 1, 1, 1, true⟩ : RowInput).market_price| < 1/10^6) →
      newton_vega Fdrift 0 ⟨1, 1, 1, 1, true⟩ (3/10) < 1/10^12 →
      newtonRowStep Fdrift 0 (1/10^6) ⟨1, 1, 1, 1, true⟩
        ⟨some (3/10), none, true⟩ =
        ⟨some (3/10), (⟨some (3/10), none, true⟩ : RowState).result, false⟩) ∧
    (¬(|newton_price Fdrift 0 ⟨1, 1, 1, 1, true⟩ (3/10) -
        (⟨1, 1, 1, 1, true⟩ : RowInput).market_price| < 1/10^6) →
      ¬(newton_vega Fdrift 0 ⟨1, 1, 1, 1, true⟩ (3/10) < 1/10^12) →
      ((3/10 - (newton_price Fdrift 0 ⟨1, 1, 1, 1, true⟩ (3/10) -
            (⟨1, 1, 1, 1, true⟩ : RowInput).market_price) /
            newton_vega Fdrift 0 ⟨1, 1, 1, 1, true⟩ (3/10) ≤ 0 ∨
          3/10 - (newton_price Fdrift 0 ⟨1, 1, 1, 1, true⟩ (3/10) -
            (⟨1, 1, 1, 1, true⟩ : RowInput).market_price) /
            newton_vega Fdrift 0 ⟨1, 1, 1, 1, true⟩ (3/10) > 10) →
        newtonRowStep Fdrift 0 (1/10^6) ⟨1, 1, 1, 1, true⟩
          ⟨some (3/10), none, true⟩ =
          ⟨none, (⟨some (3/10), none, true⟩ : RowState).result, false⟩) ∧
      (¬(3/10 - (newton_price Fdrift 0 ⟨1, 1, 1, 1, true⟩ (3/10) -
            (⟨1, 1, 1, 1, true⟩ : RowInput).market_price) /
            newton_vega Fdrift 0 ⟨1, 1, 1, 1, true⟩ (3/10) ≤ 0 ∨
          3/10 - (newton_price Fdrift 0 ⟨1, 1, 1, 1, true⟩ (3/10) -
            (⟨1, 1, 1, 1, true⟩ : RowInput).market_price) /
            newton_vega Fdrift 0 ⟨1, 1, 1, 1, true⟩ (3/10) > 10) →
        newtonRowStep Fdrift 0 (1/10^6) ⟨1, 1, 1, 1, true⟩
          ⟨some (3/10), none, true⟩ =
          ⟨some (3/10 - (newton_price Fdrift 0 ⟨1, 1, 1, 1, true⟩ (3/10) -
              (⟨1, 1, 1, 1, true⟩ : RowInput).market_price) /
              newton_vega Fdrift 0 ⟨1, 1, 1, 1, true⟩ (3/10)),
            (⟨some (3/10), none, true⟩ : RowState).result, true⟩)) :=
  newton_step_order Fdrift 0 (1/10^6) ⟨1, 1, 1, 1, true⟩
    ⟨some (3/10), none, true⟩ (3/10) rfl rfl

/-- Helper: an inactive row is fixed by the per-row step. -/
theorem newtonRowStep_inactive (F : BSFuns) (r tol : ℚ) (inp : RowInput)
    (st : RowState) (h : st.active = false) :
    newtonRowStep F r tol inp st = st := by
  obtain ⟨sg, res, act⟩ := st
  dsimp only at h
  subst h
  rfl

/-- Helper: a row that remains active after a step keeps its result entry. -/
theorem newtonRowStep_active_result (F : BSFuns) (r tol : ℚ) (inp : RowInput)
    (st : RowState) (h : (newtonRowStep F r tol inp st).active = true) :
    (newtonRowStep F r tol inp st).result = st.result := by
  obtain ⟨sg, res, act⟩ := st
  cases act with
  | false => rfl
  | true =>
    cases sg with
    | none => rfl
    | some s =>
      simp only [newtonRowStep] at h ⊢
      by_cases hc : |newton_price F r inp s - inp.market_price| < tol
      · rw [if_pos (Or.inl hc)] at h
        exact absurd h (by simp)
      · rw [if_neg hc]

/-- Helper: a step of the whole state list, read at one index. -/
theorem stepAll_getElem? (F : BSFuns) (r tol : ℚ)
    (st : List (RowInput × RowState)) (j : ℕ) :
    (stepAll F r tol st)[j]? =
      (st[j]?).map (fun p => (p.1, newtonRowStep F r tol p.1 p.2)) := by
  simp [stepAll]

/-- Helper: once no row is active, the loop is the identity. -/
theorem newtonLoop_of_inactive (F : BSFuns) (r tol : ℚ)
    (st : List (RowInput × RowState))
    (h : ¬(st.any (fun p => p.2.active) = true)) :
    ∀ n, newtonLoop F r tol n st = st := by
  intro n
  cases n with
  | zero => rfl
  | succ n =>
    simp only [newtonLoop]
    rw [if_neg h]

/-- Helper: loop fuel splits into consecutive runs. -/
theorem newtonLoop_add (F : BSFuns) (r tol : ℚ) :
    ∀ (m n : ℕ) (st : List (RowInput × RowState)),
      newtonLoop F r tol (m + n) st =
        newtonLoop F r tol n (newtonLoop F r tol m st) := by
  intro m
  induction m with
  | zero =>
    intro n st
    rw [Nat.zero_add]
    rfl
  | succ m ih =>
    intro n st
    rw [show m + 1 + n = (m + n) + 1 from by omega]
    simp only [newtonLoop]
    by_cases hany : st.any (fun p => p.2.active) = true
    · rw [if_pos hany, if_pos hany]
      exact ih n (stepAll F r tol st)
    · rw [if_neg hany, if_neg hany]
      exact (newtonLoop_of_inactive F r tol st hany n).symm

/-- Helper: a deactivated row is frozen by every further loop iteration. -/
theorem newtonLoop_frozen (F : BSFuns) (r tol : ℚ) :
    ∀ (n : ℕ) (st : List (RowInput × RowState)) (j : ℕ)
      (p : RowInput × RowState), st[j]? = some p → p.2.active = false →
      (newtonLoop F r tol n st)[j]? = some p := by
  intro n
  induction n with
  | zero =>
    intro st j p hp _
    exact hp
  | succ n ih =>
    intro st j p hp hact
    simp only [newtonLoop]
    by_cases hany : st.any (fun p => p.2.active) = true
    · rw [if_pos hany]
      refine ih (stepAll F r tol st) j p ?_ hact
      rw [stepAll_getElem?, hp]
      simp [newtonRowStep_inactive F r tol p.1 p.2 hact]
    · rw [if_neg hany]
      exact hp

/-- Helper: throughout the loop, an active row carries the sentinel in its
result entry. -/
theorem newtonLoop_inv (F : BSFuns) (r tol : ℚ) :
    ∀ (n : ℕ) (st : List (RowInput × RowState)),
      (∀ p ∈ st, p.2.active = true → p.2.result = none) →
      ∀ p ∈ newtonLoop F r tol n st, p.2.active = true → p.2.result = none := by
  intro n
  induction n with
  | zero =>
    intro st h
    exact h
  | succ n ih =>
    intro st h
    simp only [newtonLoop]
    by_cases hany : st.any (fun p => p.2.active) = true
    · rw [if_pos hany]
      refine ih (stepAll F r tol st) ?_
      intro p hp
      simp only [stepAll, List.mem_map] at hp
      obtain ⟨q, hq, rfl⟩ := hp
      intro hactive
      rw [newtonRowStep_active_result F r tol q.1 q.2 hactive]
      by_cases hqa : q.2.active = true
      · exact h q hq hqa
      · have hfalse : q.2.active = false := by
          revert hqa
          cases q.2.active <;> simp
        rw [newtonRowStep_inactive F r tol q.1 q.2 hfalse, hfalse] at hactive
        exact absurd hactive (by simp)
    · rw [if_neg hany]
      exact h

/-- Helper: the initial state of `vectorized_iv` satisfies the invariant. -/
theorem initState_inv (inputs : List RowInput) :
    ∀ p ∈ inputs.map initRow, p.2.active = true → p.2.result = none := by
  intro p hp
  simp only [List.mem_map] at hp
  obtain ⟨inp, _, rfl⟩ := hp
  intro _
  rfl

/-- C5 (corrected). For the vectorized Newton solver, every row still
active after the iteration budget carries the sentinel in the returned
result array, for every oracle and every batch — non-convergence is
representable in the output, and the embedding of `vectorized_iv` is a
total function.  (The claim's further assertion that non-convergence never
surfaces as a thrown exception from the Newton solve is refuted by
`scalar_newton_raises_cex`: the scalar Newton solver of VI.py raises.) -/
theorem newton_nonconvergence_sentinel (F : BSFuns) (r tol : ℚ)
    (inputs : List RowInput) (N j : ℕ) (p : RowInput × RowState)
    (hp : (newtonSolve F r tol inputs N)[j]? = some p)
    (hact : p.2.active = true) : p.2.result = none := by
  refine newtonLoop_inv F r tol N (inputs.map initRow) (initState_inv inputs)
    p ?_ hact
  exact List.getElem?_mem hp

/-- C5 witness: with a zero iteration budget the single row is still active
and its returned result entry is the sentinel. -/
theorem newton_nonconvergence_sentinel_witness :
    ((⟨1, 1, 1, 1, true⟩, ⟨some (3/10), none, true⟩) :
      RowInput × RowState).2.result = none :=
  newton_nonconvergence_sentinel Fzero 0 (1/10^6) [⟨1, 1, 1, 1, true⟩] 0 0
    (⟨1, 1, 1, 1, true⟩, ⟨some (3/10), none, true⟩) rfl rfl

/-- C5 counterexample: the scalar Newton solver `implied_volatility` of
VI.py raises `ValueError("IV did not converge")` when the iteration budget
is exhausted, so non-convergence does surface as a thrown exception from a
Newton solve in this repository.  The oracle keeps the price 0 and the vega
1, so the market price 1 is never matched. -/
theorem scalar_newton_raises_cex :
    implied_volatility Fdrift 1 1 1 1 0 "call" (1/10^6) 100 =
      .error "IV did not converge" := by
  decide

/-- C9 (confirmed). Result entries of the vectorized Newton solver are
monotone across iterations: a deactivated row is frozen (its whole state,
in particular a sentinel result left by a degenerate-vega, divergence or
budget deactivation, persists to every later iteration), and a numeric
result, written at the moment of convergence, persists unchanged —
since an active row always carries a sentinel result, each entry
transitions at most once, from sentinel to numeric. -/
theorem newton_result_monotonic (F : BSFuns) (r tol : ℚ)
    (inputs : List RowInput) (k l j : ℕ) (p : RowInput × RowState) (v : ℚ)
    (hkl : k ≤ l) (hp : (newtonSolve F r tol inputs k)[j]? = some p) :
    (p.2.active = false → (newtonSolve F r tol inputs l)[j]? = some p) ∧
    (p.2.result = some v → (newtonSolve F r tol inputs l)[j]? = some p) := by
  have hsplit : newtonSolve F r tol inputs l =
      newtonLoop F r tol (l - k) (newtonSolve F r tol inputs k) := by
    have hadd := newtonLoop_add F r tol k (l - k) (inputs.map initRow)
    rw [show k + (l - k) = l from by omega] at hadd
    exact hadd
  constructor
  · intro hact
    rw [hsplit]
    exact newtonLoop_frozen F r tol (l - k) (newtonSolve F r tol inputs k) j p
      hp hact
  · intro hres
    have hact : p.2.active = false := by
      by_cases ha : p.2.active = true
      · have := newtonLoop_inv F r tol k (inputs.map initRow)
          (initState_inv inputs) p (List.getElem?_mem hp) ha
        rw [this] at hres
        exact absurd hres (by simp)
      · revert ha
        cases p.2.active <;> simp
    rw [hsplit]
    exact newtonLoop_frozen F r tol (l - k) (newtonSolve F r tol inputs k) j p
      hp hact

/-- C9 witness: the single `Fzero` row converges in the first iteration to
the numeric result 0.3; two further iterations leave its state unchanged. -/
theorem newton_result_monotonic_witness :
    (((⟨0, 100, 200, 1/100, true⟩, ⟨some (3/10), some (3/10), false⟩) :
        RowInput × RowState).2.active = false →
      (newtonSolve Fzero (65/1000) (1/10^6) [⟨0, 100, 200, 1/100, true⟩] 3)[0]? =
        some (⟨0, 100, 200, 1/100, true⟩, ⟨some (3/10), some (3/10), false⟩)) ∧
    (((⟨0, 100, 200, 1/100, true⟩, ⟨some (3/10), some (3/10), false⟩) :
        RowInput × RowState).2.result = some (3/10) →
      (newtonSolve Fzero (65/1000) (1/10^6) [⟨0, 100, 200, 1/100, true⟩] 3)[0]? =
        some (⟨0, 100, 200, 1/100, true⟩, ⟨some (3/10), some (3/10), false⟩)) :=
  newton_result_monotonic Fzero (65/1000) (1/10^6) [⟨0, 100, 200, 1/100, true⟩]
    1 3 0 (⟨0, 100, 200, 1/100, true⟩, ⟨some (3/10), some (3/10), false⟩) (3/10)
    (by omega) (by decide)

/-- Helper: the per-row Greeks computation refines the specification
formulas: sentinel sigma gives the all-sentinel row, the validity mask
selects the specification's closed forms, and everything else is sentinel. -/
theorem greeks_row_spec (F : BSFuns) (r q s k t : ℚ) (sg : Option ℚ)
    (c : Bool) :
    greeks_row F r q s k t sg c =
      match sg with
      | none => nanGreeks
      | some x => if t > 0 ∧ s > 0 ∧ k > 0 ∧ x > 0
                  then specGreeks F r q s k t x c else nanGreeks := by
  cases sg with
  | none => rfl
  | some x =>
    simp only [greeks_row]
    by_cases h : t > 0 ∧ s > 0 ∧ k > 0 ∧ x > 0
    · rw [if_pos h, if_pos h]
      unfold specGreeks
      have hd1 : specD1 F r q s k t x
          = (F.log (s / k) + (r - q + 1/2 * x^2) * t) / (x * F.sqrt t) := by
        unfold specD1
        ring
      have hd2 : specD2 F r q s k t x
          = (F.log (s / k) + (r - q + 1/2 * x^2) * t) / (x * F.sqrt t)
            - x * F.sqrt t := by
        unfold specD2
        rw [hd1]
      rw [hd2, hd1]
      cases c <;>
        simp only [GreeksRow.mk.injEq, Option.some.injEq, Bool.false_eq_true,
          if_false, if_true] <;>
        (repeat' constructor) <;>
        ring
    · rw [if_neg h, if_neg h]

/-- Helper: the Greeks evaluator read at one index is the per-row
computation on the equally indexed entries. -/
theorem compute_greeks_getElem? (F : BSFuns) (r q : ℚ) :
    ∀ (j : ℕ) (S K T : List ℚ) (sigma : List (Option ℚ)) (is_call : List Bool)
      (s k t : ℚ) (sg : Option ℚ) (c : Bool),
      S[j]? = some s → K[j]? = some k → T[j]? = some t →
      sigma[j]? = some sg → is_call[j]? = some c →
      (compute_greeks_vectorized F S K T r q sigma is_call)[j]? =
        some (greeks_row F r q s k t sg c) := by
  intro j
  induction j with
  | zero =>
    intro S K T sigma is_call s k t sg c hS hK hT hsg hc
    cases S with
    | nil => exact absurd hS (by simp)
    | cons s0 Ss =>
      cases K with
      | nil => exact absurd hK (by simp)
      | cons k0 Ks =>
        cases T with
        | nil => exact absurd hT (by simp)
        | cons t0 Ts =>
          cases sigma with
          | nil => exact absurd hsg (by simp)
          | cons sg0 sgs =>
            cases is_call with
            | nil => exact absurd hc (by simp)
            | cons c0 cs =>
              simp only [List.getElem?_cons_zero, Option.some.injEq]
                at hS hK hT hsg hc
              subst hS
              subst hK
              subst hT
              subst hsg
              subst hc
              simp only [compute_greeks_vectorized, List.getElem?_cons_zero]
  | succ j ih =>
    intro S K T sigma is_call s k t sg c hS hK hT hsg hc
    cases S with
    | nil => exact absurd hS (by simp)
    | cons s0 Ss =>
      cases K with
      | nil => exact absurd hK (by simp)
      | cons k0 Ks =>
        cases T with
        | nil => exact absurd hT (by simp)
        | cons t0 Ts =>
          cases sigma with
          | nil => exact absurd hsg (by simp)
          | cons sg0 sgs =>
            cases is_call with
            | nil => exact absurd hc (by simp)
            | cons c0 cs =>
              simp only [List.getElem?_cons_succ] at hS hK hT hsg hc ⊢
              simp only [compute_greeks_vectorized, List.getElem?_cons_succ]
              exact ih Ss Ks Ts sgs cs s k t sg c hS hK hT hsg hc

/-- C4 (confirmed). Each output row of the Greeks evaluator is read off the
single combined validity mask (sigma finite, `T>0`, `S>0`, `K>0`,
`sigma>0`): a sentinel sigma row has all five Greeks sentinel, a valid row
carries exactly the specification's closed-form delta, gamma, vega, theta
and rho (with the elementwise call/put selection and the /100, /365
scalings), and a finite sigma failing the mask stays all-sentinel. -/
theorem greeks_mask_formulas (F : BSFuns) (S K T : List ℚ) (r q : ℚ)
    (sigma : List (Option ℚ)) (is_call : List Bool) (j : ℕ)
    (s k t : ℚ) (sg : Option ℚ) (c : Bool)
    (hS : S[j]? = some s) (hK : K[j]? = some k) (hT : T[j]? = some t)
    (hsg : sigma[j]? = some sg) (hc : is_call[j]? = some c) :
    (compute_greeks_vectorized F S K T r q sigma is_call)[j]? =
      some (match sg with
        | none => nanGreeks
        | some x => if t > 0 ∧ s > 0 ∧ k > 0 ∧ x > 0
                    then specGreeks F r q s k t x c else nanGreeks) := by
  rw [compute_greeks_getElem? F r q j S K T sigma is_call s k t sg c
    hS hK hT hsg hc, greeks_row_spec]
  cases sg <;> rfl

/-- C4 witness: a one-row batch with a valid solved sigma receives the
specification formulas, applied through the mask. -/
theorem greeks_mask_formulas_witness :
    (compute_greeks_vectorized Fzero [100] [100] [1] (1/20) 0 [some (1/2)]
      [true])[0]? =
      some (if (1 : ℚ) > 0 ∧ (100 : ℚ) > 0 ∧ (100 : ℚ) > 0 ∧ (1/2 : ℚ) > 0
            then specGreeks Fzero (1/20) 0 100 100 1 (1/2) true
            else nanGreeks) :=
  greeks_mask_formulas Fzero [100] [100] [1] (1/20) 0 [some (1/2)] [true] 0
    100 100 1 (some (1/2)) true rfl rfl rfl rfl rfl

/-- Helper: the chunk partition of the empty list is empty. -/
theorem makeChunks_nil (c : ℕ) : makeChunks ([] : List α) c = [] := by
  unfold makeChunks pyRange
  have h : ((([] : List α)).length + c - 1) / c = 0 := by
    rw [List.length_nil]
    cases c with
    | zero => rfl
    | succ c => exact Nat.div_eq_of_lt (by omega)
  rw [h]
  rfl

/-- Helper: the chunk partition of a nonempty list is its first chunk
followed by the partition of the rest. -/
theorem makeChunks_cons (c : ℕ) (hc : 0 < c) (l : List α) (hl : l ≠ []) :
    makeChunks l c = l.take c :: makeChunks (l.drop c) c := by
  have hn : 0 < l.length := List.length_pos.mpr hl
  have hcount : (l.length + c - 1) / c = ((l.drop c).length + c - 1) / c + 1 := by
    rw [List.length_drop]
    rcases le_or_lt l.length c with h | h
    · have hr : (l.length - c + c - 1) / c = 0 := by
        rw [show l.length - c = 0 from by omega]
        exact Nat.div_eq_of_lt (by omega)
      have hl1 : (l.length + c - 1) / c = 1 := by
        rw [show l.length + c - 1 = (l.length - 1) + 1 * c from by omega,
          Nat.add_mul_div_right _ _ hc, Nat.div_eq_of_lt (by omega)]
      rw [hl1, hr]
    · rw [show l.length + c - 1 = (l.length - c + c - 1) + c from by omega,
        Nat.add_div_right _ hc]
  unfold makeChunks pyRange
  rw [hcount, List.range_succ_eq_map]
  simp only [List.map_cons, List.map_map]
  rw [show (0 : ℕ) * c = 0 from by omega, List.drop_zero]
  refine congrArg (l.take c :: ·) ?_
  apply List.map_congr_left
  intro i _
  simp only [Function.comp_apply]
  rw [List.drop_drop, show (i + 1) * c = i * c + c from by ring,
    Nat.add_comm (i * c) c]

/-- Helper: the chunks flatten back to the original list. -/
theorem makeChunks_flatten (c : ℕ) (hc : 0 < c) :
    ∀ (N : ℕ) (l : List α), l.length ≤ N → (makeChunks l c).flatten = l := by
  intro N
  induction N with
  | zero =>
    intro l hl
    have h0 : l = [] := List.length_eq_zero.mp (Nat.le_zero.mp hl)
    subst h0
    rw [makeChunks_nil]
    rfl
  | succ N ih =>
    intro l hl
    by_cases hnil : l = []
    · subst hnil
      rw [makeChunks_nil]
      rfl
    · rw [makeChunks_cons c hc l hnil]
      simp only [List.flatten_cons]
      rw [ih (l.drop c) (by rw [List.length_drop]; omega)]
      exact List.take_append_drop c l

/-- Helper: every chunk has length at most the chunk size. -/
theorem mem_makeChunks_length (c : ℕ) (l : List α) (ch : List α)
    (h : ch ∈ makeChunks l c) : ch.length ≤ c := by
  unfold makeChunks pyRange at h
  simp only [List.map_map, List.mem_map, Function.comp_apply] at h
  obtain ⟨i, _, rfl⟩ := h
  rw [List.length_take]
  omega

/-- Helper: every chunk except possibly the last has length exactly the
chunk size. -/
theorem makeChunks_getElem?_full (c : ℕ) (hc : 0 < c) (l : List α) (m : ℕ)
    (ch : List α) (h : (makeChunks l c)[m]? = some ch)
    (hm : m + 1 < (makeChunks l c).length) : ch.length = c := by
  unfold makeChunks pyRange at h hm
  simp only [List.map_map, List.length_map, List.length_range] at hm
  rw [List.getElem?_map, List.getElem?_map, List.getElem?_range (by omega)] at h
  simp only [Option.map_some', Option.some.injEq] at h
  have h2 : (m + 2) * c ≤ ((l.length + c - 1) / c) * c :=
    Nat.mul_le_mul_right c (by omega)
  have h3 : ((l.length + c - 1) / c) * c ≤ l.length + c - 1 :=
    Nat.div_mul_le_self _ _
  have h4 : (m + 2) * c = m * c + 2 * c := by ring
  rw [h4] at h2
  have h6 : m * c + 2 * c ≤ l.length + c - 1 := le_trans h2 h3
  rw [← h, List.length_take, List.length_drop]
  generalize m * c = mc at h6 ⊢
  omega

/-- Helper: folding the index-tagged chunk results in submission order
writes, at every index, exactly the sequential rowwise solve of the
original list, and leaves the accumulator elsewhere. -/
theorem assemble_sequential (F : BSFuns) (c : ℕ) (hc : 0 < c) :
    ∀ (N : ℕ) (l : List SolveArgs), l.length ≤ N →
    ∀ (k : ℕ) (acc : ℕ → Option ℚ) (j : ℕ),
      (List.enumFrom k ((makeChunks l c).map (solve_iv_chunk F))).foldl
        (writeChunk c) acc j =
      if k * c ≤ j ∧ j < k * c + l.length
      then (l.map (solve_iv F)).getD (j - k * c) none
      else acc j := by
  intro N
  induction N with
  | zero =>
    intro l hl k acc j
    have h0 : l = [] := List.length_eq_zero.mp (Nat.le_zero.mp hl)
    subst h0
    rw [makeChunks_nil]
    simp only [List.map_nil, List.enumFrom_nil, List.foldl_nil, List.length_nil]
    rw [if_neg (by omega)]
  | succ N ih =>
    intro l hl k acc j
    by_cases hnil : l = []
    · subst hnil
      rw [makeChunks_nil]
      simp only [List.map_nil, List.enumFrom_nil, List.foldl_nil, List.length_nil]
      rw [if_neg (by omega)]
    · rw [makeChunks_cons c hc l hnil]
      simp only [List.map_cons, List.enumFrom_cons, List.foldl_cons]
      rw [ih (l.drop c) (by rw [List.length_drop]; omega) (k + 1)
        (writeChunk c acc (k, solve_iv_chunk F (l.take c))) j]
      have hmap : l.map (solve_iv F)
          = (l.take c).map (solve_iv F) ++ (l.drop c).map (solve_iv F) := by
        rw [← List.map_append, List.take_append_drop]
      have hlen_take : ((l.take c).map (solve_iv F)).length = min c l.length := by
        simp [List.length_take]
      have hchunk : solve_iv_chunk F (l.take c) = (l.take c).map (solve_iv F) := rfl
      have hmul : (k + 1) * c = k * c + c := by ring
      rw [List.length_drop, hmul]
      simp only [writeChunk, hchunk, hlen_take]
      by_cases hA : k * c + c ≤ j ∧ j < k * c + c + (l.length - c)
      · rw [if_pos hA]
        have hcn : c + 1 ≤ l.length := by
          rcases hA with ⟨h1, h2⟩
          by_contra hle
          have : l.length - c = 0 := by omega
          omega
        rw [if_pos (by
          rcases hA with ⟨h1, h2⟩
          constructor
          · omega
          · have : l.length - c + c = l.length := by omega
            omega)]
        rw [hmap, List.getD_append_right _ _ _ _ (by
          rw [hlen_take]
          rcases hA with ⟨h1, _⟩
          have : min c l.length = c := by omega
          omega)]
        rw [hlen_take]
        have : min c l.length = c := by omega
        rw [this]
        congr 1
        omega
      · rw [if_neg hA]
        by_cases hB : k * c ≤ j ∧ j < k * c + min c l.length
        · rw [if_pos hB]
          rw [if_pos (by
            rcases hB with ⟨h1, h2⟩
            constructor
            · exact h1
            · have : min c l.length ≤ l.length := by omega
              omega)]
          rw [hmap, List.getD_append _ _ _ _ (by
            rw [hlen_take]
            rcases hB with ⟨h1, h2⟩
            omega)]
        · rw [if_neg hB]
          rw [if_neg (by
            intro hgoal
            rcases hgoal with ⟨h1, h2⟩
            apply hB
            constructor
            · exact h1
            · by_contra hge
              push_neg at hge
              apply hA
              constructor
              · omega
              · omega)]


/-- Helper: a tagged pair delivered by the pool is the solved chunk at its
tag position. -/
theorem taggedResults_mem (F : BSFuns) (args : List SolveArgs) (c : ℕ)
    (i : ℕ) (xs : List (Option ℚ)) (h : (i, xs) ∈ taggedResults F args c) :
    ((makeChunks args c).map (solve_iv_chunk F))[i]? = some xs := by
  unfold taggedResults at h
  exact List.mk_mem_enum_iff_getElem?.mp h

/-- Helper: every delivered chunk-result list has at most `c` rows. -/
theorem taggedResults_length (F : BSFuns) (args : List SolveArgs) (c : ℕ)
    (i : ℕ) (xs : List (Option ℚ)) (h : (i, xs) ∈ taggedResults F args c) :
    xs.length ≤ c := by
  have h1 := taggedResults_mem F args c i xs h
  have h2 := List.getElem?_mem h1
  simp only [List.mem_map] at h2
  obtain ⟨ch, hch, rfl⟩ := h2
  have h3 := mem_makeChunks_length c args ch hch
  simpa [solve_iv_chunk] using h3

/-- Helper: writes of two delivered chunks commute — equal tags carry equal
results, and distinct tags write disjoint index ranges. -/
theorem writeChunk_comm (F : BSFuns) (args : List SolveArgs) (c : ℕ)
    (x y : ℕ × List (Option ℚ)) (hx : x ∈ taggedResults F args c)
    (hy : y ∈ taggedResults F args c) (z : ℕ → Option ℚ) :
    writeChunk c (writeChunk c z x) y = writeChunk c (writeChunk c z y) x := by
  obtain ⟨i, xs⟩ := x
  obtain ⟨i', ys⟩ := y
  by_cases hxy : i = i'
  · subst hxy
    have h1 := taggedResults_mem F args c i xs hx
    have h2 := taggedResults_mem F args c i ys hy
    rw [h1, Option.some.injEq] at h2
    rw [h2]
  · have hlx := taggedResults_length F args c i xs hx
    have hly := taggedResults_length F args c i' ys hy
    funext j
    simp only [writeChunk]
    have hdis : ¬((i * c ≤ j ∧ j < i * c + xs.length) ∧
        (i' * c ≤ j ∧ j < i' * c + ys.length)) := by
      rintro ⟨⟨ha1, ha2⟩, hb1, hb2⟩
      rcases Nat.lt_or_ge i i' with hlt | hge
      · have hsep : i * c + c ≤ i' * c := by
          have h5 := Nat.mul_le_mul_right c (show i + 1 ≤ i' from hlt)
          rw [Nat.succ_mul] at h5
          exact h5
        generalize i * c = a at ha1 ha2 hsep
        generalize i' * c = b at hb1 hb2 hsep
        omega
      · have hlt : i' < i := by omega
        have hsep : i' * c + c ≤ i * c := by
          have h5 := Nat.mul_le_mul_right c (show i' + 1 ≤ i from hlt)
          rw [Nat.succ_mul] at h5
          exact h5
        generalize i * c = a at ha1 ha2 hsep
        generalize i' * c = b at hb1 hb2 hsep
        omega
    by_cases hRy : i' * c ≤ j ∧ j < i' * c + ys.length
    · have hnRx : ¬(i * c ≤ j ∧ j < i * c + xs.length) :=
        fun hRx => hdis ⟨hRx, hRy⟩
      rw [if_pos hRy, if_neg hnRx, if_pos hRy]
    · by_cases hRx : i * c ≤ j ∧ j < i * c + xs.length
      · rw [if_neg hRy, if_pos hRx, if_pos hRx]
      · rw [if_neg hRy, if_neg hRx, if_neg hRx, if_neg hRy]

/-- C3 (confirmed). For every chunk size, the pool-distributed solve equals
the sequential rowwise solve: delivering the index-tagged chunk results in
any order (any permutation — hence independent of worker count and of which
worker finishes first) and writing each at its chunk start offset
reproduces, at every index, the sequential `_solve_iv` map over the whole
argument list. -/
theorem pool_order_preservation (F : BSFuns) (args : List SolveArgs) (c : ℕ)
    (delivered : List (ℕ × List (Option ℚ))) (j : ℕ) (hc : 0 < c)
    (hperm : List.Perm delivered (taggedResults F args c)) :
    assemble c delivered j = (args.map (solve_iv F)).getD j none := by
  unfold assemble
  rw [hperm.foldl_eq' (fun x hx y hy z => writeChunk_comm F args c x y
      (hperm.mem_iff.mp hx) (hperm.mem_iff.mp hy) z) (fun _ => none)]
  unfold taggedResults
  rw [show List.enum ((makeChunks args c).map (solve_iv_chunk F)) =
      List.enumFrom 0 ((makeChunks args c).map (solve_iv_chunk F)) from rfl]
  rw [assemble_sequential F c hc args.length args le_rfl 0 (fun _ => none) j]
  simp only [Nat.zero_mul, Nat.zero_add, Nat.sub_zero]
  by_cases hj : j < args.length
  · rw [if_pos ⟨Nat.zero_le j, hj⟩]
  · rw [if_neg (by omega)]
    rw [List.getD_eq_default]
    rw [List.length_map]
    omega

/-- C3 witness: two one-row chunks delivered in reversed order still
reproduce the sequential solve at row 0. -/
theorem pool_order_preservation_witness :
    assemble 1 [(1, [none]), (0, [none])] 0 =
      (([⟨1, 1, 0, 0, 0, 1, true⟩, ⟨2, 2, 0, 0, 0, 2, true⟩] :
        List SolveArgs).map (solve_iv Fzero)).getD 0 none :=
  pool_order_preservation Fzero
    [⟨1, 1, 0, 0, 0, 1, true⟩, ⟨2, 2, 0, 0, 0, 2, true⟩] 1
    [(1, [none]), (0, [none])] 0 (by norm_num) (by decide)

end OptionData
